import Mathlib

/-!
Verification of the Texas Hold'em simulator core: a shallow embedding of
the card model (`cards.py`), the 5-card hand evaluator and best-hand
selection (`hand_eval.py`), winner resolution (`game.py`), the equity
simulators (`equity.py`, with the shuffle externalised as an oracle), and
the EV/EU decision model (`strategy.py`), together with theorems checking
the specification's claims against these definitions.
-/

/-- Suit from `cards.py` (IntEnum CLUBS=0, DIAMONDS=1, HEARTS=2, SPADES=3). -/
inductive Suit where
  | CLUBS
  | DIAMONDS
  | HEARTS
  | SPADES
deriving DecidableEq, Repr

/-- Card from `cards.py`: a rank (the IntEnum's integer value, 2..14 with
Ace = 14) together with a suit. -/
structure Card where
  rank : Nat
  suit : Suit
deriving DecidableEq, Repr

/-- Origin label used by `validate_unique_cards` in `game.py`: either
"player i hole" or "board[j]". -/
inductive Origin where
  | playerHole (i : Nat)
  | board (j : Nat)
deriving DecidableEq, Repr

/-- Error taxonomy of the specification; the Python code raises
`ValueError` / `IndexError` with messages corresponding to these cases. -/
inductive Err where
  | InvalidCardFormat
  | InvalidArgument
  | DeckExhausted
  | InsufficientCards
  | DuplicateCard (card : Card) (origin prev : Origin)
  | TooFewHoleCards (player : Nat)
  | BoardSizeOutOfRange
  | NoPlayers
  | TooFewCards
  | InvalidHandSize
deriving DecidableEq, Repr

namespace HandCategory

/-- HandCategory.HIGH_CARD from `hand_eval.py`. -/
def HIGH_CARD : Nat := 0

/-- HandCategory.ONE_PAIR from `hand_eval.py`. -/
def ONE_PAIR : Nat := 1

/-- HandCategory.TWO_PAIR from `hand_eval.py`. -/
def TWO_PAIR : Nat := 2

/-- HandCategory.THREE_OF_A_KIND from `hand_eval.py`. -/
def THREE_OF_A_KIND : Nat := 3

/-- HandCategory.STRAIGHT from `hand_eval.py`. -/
def STRAIGHT : Nat := 4

/-- HandCategory.FLUSH from `hand_eval.py`. -/
def FLUSH : Nat := 5

/-- HandCategory.FULL_HOUSE from `hand_eval.py`. -/
def FULL_HOUSE : Nat := 6

/-- HandCategory.FOUR_OF_A_KIND from `hand_eval.py`. -/
def FOUR_OF_A_KIND : Nat := 7

/-- HandCategory.STRAIGHT_FLUSH from `hand_eval.py`. -/
def STRAIGHT_FLUSH : Nat := 8

end HandCategory

/-- HandValue from `hand_eval.py`: a category together with a tiebreaker
tuple (here a list of rank integers). -/
structure HandValue where
  category : Nat
  tiebreaker : List Nat
deriving DecidableEq, Repr

/-- Lexicographic order on integer tuples, as Python compares tuples:
a strict prefix is smaller, otherwise the first differing entry decides. -/
def lexLt : List Nat → List Nat → Bool
  | [], [] => false
  | [], _ :: _ => true
  | _ :: _, [] => false
  | a :: as, b :: bs => if a < b then true else if b < a then false else lexLt as bs

/-- Python's `HandValue.__lt__` (dataclass `order=True`): the pairs
`(category, tiebreaker)` are compared lexicographically, which is the
lexicographic order on `category :: tiebreaker`. -/
def hvLtB (a b : HandValue) : Bool :=
  lexLt (a.category :: a.tiebreaker) (b.category :: b.tiebreaker)

/-- Non-strict companion order on hand values. -/
def hvLeB (a b : HandValue) : Bool :=
  !(hvLtB b a)

/-- Sort a list of integers in descending order
(Python `sorted(..., reverse=True)`). -/
def sortDesc (l : List Nat) : List Nat :=
  l.insertionSort (fun a b => b ≤ a)

/-- Straight detection from `_evaluate_5cards`, applied to the distinct
ranks sorted descending: the wheel `[14,5,4,3,2]` is a 5-high straight,
otherwise five distinct ranks spanning exactly 4 form a straight headed by
the top rank; returns the straight's high card when there is one. -/
def straightHighOf : List Nat → Option Nat
  | [14, 5, 4, 3, 2] => some 5
  | [a, _, _, _, e] => if a - e = 4 then some a else none
  | _ => none

/-- Python `max(rank for rank, cnt in rank_counts.items() if cnt = k)`:
the largest rank occurring exactly `k` times (0 if there is none; every
use in `_evaluate_5cards` is on a nonempty selection). -/
def maxRankWithCount (ranks : List Nat) (k : Nat) : Nat :=
  ((ranks.dedup.filter (fun r => ranks.count r = k)).foldr max 0)

/-- Python `sorted((rank for rank, cnt in ... if cnt = k), reverse=True)`:
the ranks occurring exactly `k` times, in descending order. -/
def ranksWithCountDesc (ranks : List Nat) (k : Nat) : List Nat :=
  sortDesc (ranks.dedup.filter (fun r => ranks.count r = k))

/-- The core of `_evaluate_5cards` from `hand_eval.py`, scoring exactly
five cards (the caller enforces the length-5 precondition). -/
def evaluate5 (cards : List Card) : HandValue :=
  let ranks := cards.map (fun c => c.rank)
  let suits := cards.map (fun c => c.suit)
  let counts_signature := sortDesc (ranks.dedup.map (fun r => ranks.count r))
  let is_flush := suits.dedup.length = 1
  let unique_ranks := sortDesc ranks.dedup
  let straight_high := straightHighOf unique_ranks
  if is_flush ∧ straight_high.isSome then
    ⟨HandCategory.STRAIGHT_FLUSH, [straight_high.getD 0]⟩
  else if counts_signature = [4, 1] then
    ⟨HandCategory.FOUR_OF_A_KIND, [maxRankWithCount ranks 4, maxRankWithCount ranks 1]⟩
  else if counts_signature = [3, 2] then
    ⟨HandCategory.FULL_HOUSE, [maxRankWithCount ranks 3, maxRankWithCount ranks 2]⟩
  else if is_flush then
    ⟨HandCategory.FLUSH, sortDesc ranks⟩
  else if straight_high.isSome then
    ⟨HandCategory.STRAIGHT, [straight_high.getD 0]⟩
  else if counts_signature = [3, 1, 1] then
    ⟨HandCategory.THREE_OF_A_KIND, maxRankWithCount ranks 3 :: ranksWithCountDesc ranks 1⟩
  else if counts_signature = [2, 2, 1] then
    ⟨HandCategory.TWO_PAIR, ranksWithCountDesc ranks 2 ++ [maxRankWithCount ranks 1]⟩
  else if counts_signature = [2, 1, 1, 1] then
    ⟨HandCategory.ONE_PAIR, maxRankWithCount ranks 2 :: ranksWithCountDesc ranks 1⟩
  else
    ⟨HandCategory.HIGH_CARD, sortDesc ranks⟩

/-- One step of Python's `max` over hand values (and of the accumulation
loop in `evaluate_best`): keep the current value unless the next is
strictly greater. -/
def pyStep (b y : HandValue) : HandValue :=
  if hvLtB b y then y else b

/-- Python's `max` over hand values, and equally the accumulation loop of
`evaluate_best`; `none` on an empty list. -/
def pyMax : List HandValue → Option HandValue
  | [] => none
  | x :: xs => some (xs.foldl pyStep x)

/-- `evaluate_best` from `hand_eval.py`: fewer than 5 cards is an error
(`TooFewCards`), exactly 5 delegates to the 5-card evaluator, otherwise
the maximum evaluation over all 5-card combinations is returned (the
`none` branch is unreachable: with more than 5 cards there is at least
one combination). -/
def evaluate_best (cards : List Card) : Except Err HandValue :=
  if cards.length < 5 then .error .TooFewCards
  else if cards.length = 5 then .ok (evaluate5 cards)
  else
    match pyMax ((cards.sublistsLen 5).map evaluate5) with
    | some hv => .ok hv
    | none => .error .TooFewCards

theorem lexLt_irrefl : ∀ l : List Nat, lexLt l l = false := by
  intro l
  induction l with
  | nil => rfl
  | cons a t ih => simp [lexLt, ih]

theorem lexLt_trans : ∀ a b c : List Nat,
    lexLt a b = true → lexLt b c = true → lexLt a c = true := by
  intro a
  induction a with
  | nil =>
    intro b c hab hbc
    cases b with
    | nil => exact hbc
    | cons y bs =>
      cases c with
      | nil => simp [lexLt] at hbc
      | cons z cs => rfl
  | cons x as ih =>
    intro b c hab hbc
    cases b with
    | nil => simp [lexLt] at hab
    | cons y bs =>
      cases c with
      | nil => simp [lexLt] at hbc
      | cons z cs =>
        simp only [lexLt] at hab hbc ⊢
        rcases Nat.lt_trichotomy x y with h1 | h1 | h1
        · rcases Nat.lt_trichotomy y z with h2 | h2 | h2
          · simp [Nat.lt_trans h1 h2]
          · subst h2
            simp [h1]
          · rw [if_neg (by omega), if_pos h2] at hbc
            exact absurd hbc (by simp)
        · subst h1
          rw [if_neg (by omega), if_neg (by omega)] at hab
          rcases Nat.lt_trichotomy x z with h2 | h2 | h2
          · simp [h2]
          · subst h2
            rw [if_neg (by omega), if_neg (by omega)] at hbc
            rw [if_neg (by omega), if_neg (by omega)]
            exact ih _ _ hab hbc
          · rw [if_neg (by omega), if_pos h2] at hbc
            exact absurd hbc (by simp)
        · rw [if_neg (by omega), if_pos h1] at hab
          exact absurd hab (by simp)

theorem lexLt_connex : ∀ a b : List Nat,
    lexLt a b = false → lexLt b a = false → a = b := by
  intro a
  induction a with
  | nil =>
    intro b hab _
    cases b with
    | nil => rfl
    | cons y bs => simp [lexLt] at hab
  | cons x as ih =>
    intro b hab hba
    cases b with
    | nil => simp [lexLt] at hba
    | cons y bs =>
      simp only [lexLt] at hab hba
      rcases Nat.lt_trichotomy x y with h1 | h1 | h1
      · rw [if_pos h1] at hab
        exact absurd hab (by simp)
      · subst h1
        rw [if_neg (by omega), if_neg (by omega)] at hab hba
        rw [ih bs hab hba]
      · rw [if_pos h1] at hba
        exact absurd hba (by simp)

theorem hvLtB_asymm {a b : HandValue} (h : hvLtB a b = true) : hvLtB b a = false := by
  simp only [hvLtB] at h ⊢
  cases hba : lexLt (b.category :: b.tiebreaker) (a.category :: a.tiebreaker) with
  | false => rfl
  | true =>
    have habs := lexLt_trans _ _ _ h hba
    rw [lexLt_irrefl] at habs
    exact absurd habs (by simp)

theorem hvLeB_refl (a : HandValue) : hvLeB a a = true := by
  simp [hvLeB, hvLtB, lexLt_irrefl]

theorem hvLeB_trans {a b c : HandValue} (hab : hvLeB a b = true) (hbc : hvLeB b c = true) :
    hvLeB a c = true := by
  simp only [hvLeB, hvLtB, Bool.not_eq_true'] at hab hbc ⊢
  cases hca : lexLt (c.category :: c.tiebreaker) (a.category :: a.tiebreaker) with
  | false => rfl
  | true =>
    cases hcb : lexLt (b.category :: b.tiebreaker) (c.category :: c.tiebreaker) with
    | false =>
      have heq := lexLt_connex _ _ hbc hcb
      rw [heq] at hca
      rw [hca] at hab
      exact absurd hab (by simp)
    | true =>
      have hba := lexLt_trans _ _ _ hcb hca
      rw [hba] at hab
      exact absurd hab (by simp)

theorem hvLeB_of_hvLtB {a b : HandValue} (h : hvLtB a b = true) : hvLeB a b = true := by
  simp [hvLeB, hvLtB_asymm h]

theorem hvLeB_of_not_hvLtB {a b : HandValue} (h : hvLtB b a = false) : hvLeB a b = true := by
  simp [hvLeB, h]

theorem pyStep_left (b y : HandValue) : hvLeB b (pyStep b y) = true := by
  unfold pyStep
  by_cases h : hvLtB b y = true
  · rw [if_pos h]
    exact hvLeB_of_hvLtB h
  · rw [if_neg h]
    exact hvLeB_refl b

theorem pyStep_right (b y : HandValue) : hvLeB y (pyStep b y) = true := by
  unfold pyStep
  by_cases h : hvLtB b y = true
  · rw [if_pos h]
    exact hvLeB_refl y
  · rw [if_neg h]
    exact hvLeB_of_not_hvLtB (by cases hb : hvLtB b y; rfl; exact absurd hb h)

theorem pyFold_ub (xs : List HandValue) : ∀ b y, hvLeB y b = true →
    hvLeB y (xs.foldl pyStep b) = true := by
  induction xs with
  | nil => intro b y h; simpa using h
  | cons z t ih =>
    intro b y h
    simp only [List.foldl_cons]
    exact ih _ _ (hvLeB_trans h (pyStep_left b z))

theorem pyFold_ub_mem (xs : List HandValue) : ∀ b y, y ∈ xs →
    hvLeB y (xs.foldl pyStep b) = true := by
  induction xs with
  | nil => intro b y h; simp at h
  | cons z t ih =>
    intro b y h
    simp only [List.foldl_cons]
    rcases List.mem_cons.1 h with h | h
    · subst h
      exact pyFold_ub t (pyStep b y) y (pyStep_right b y)
    · exact ih _ _ h

theorem pyFold_mem (xs : List HandValue) : ∀ b, xs.foldl pyStep b ∈ b :: xs := by
  induction xs with
  | nil => intro b; simp
  | cons z t ih =>
    intro b
    simp only [List.foldl_cons]
    rcases List.mem_cons.1 (ih (pyStep b z)) with h | h
    · rw [h]
      unfold pyStep
      by_cases hbz : hvLtB b z = true
      · rw [if_pos hbz]
        simp
      · rw [if_neg hbz]
        simp
    · exact List.mem_cons_of_mem _ (List.mem_cons_of_mem _ h)

theorem pyMax_spec (l : List HandValue) (m : HandValue) (h : pyMax l = some m) :
    m ∈ l ∧ ∀ y ∈ l, hvLeB y m = true := by
  cases l with
  | nil => simp [pyMax] at h
  | cons x xs =>
    simp only [pyMax, Option.some.injEq] at h
    subst h
    refine ⟨pyFold_mem xs x, ?_⟩
    intro y hy
    rcases List.mem_cons.1 hy with hy | hy
    · subst hy
      exact pyFold_ub xs y y (hvLeB_refl y)
    · exact pyFold_ub_mem xs x y hy

theorem pyMax_isSome {l : List HandValue} (h : l ≠ []) : ∃ m, pyMax l = some m := by
  cases l with
  | nil => exact absurd rfl h
  | cons x xs => exact ⟨xs.foldl pyStep x, rfl⟩

/-- C1: for an input of 6 or 7 cards, `evaluate_best` returns exactly the
maximum, under the HandValue order, of the 5-card evaluation over all
size-5 subsets of the input (21 subsets for 7 cards); for exactly 5 cards
it returns the 5-card evaluation directly; for fewer than 5 cards it
fails with the TooFewCards error. -/
theorem evaluate_best_max_of_subsets (cards : List Card) :
    (cards.length = 6 ∨ cards.length = 7 →
      ∃ hv, evaluate_best cards = .ok hv
        ∧ (∃ s, s.Sublist cards ∧ s.length = 5 ∧ evaluate5 s = hv)
        ∧ ∀ s, s.Sublist cards → s.length = 5 → hvLeB (evaluate5 s) hv = true)
    ∧ (cards.length = 7 → (cards.sublistsLen 5).length = 21)
    ∧ (cards.length = 5 → evaluate_best cards = .ok (evaluate5 cards))
    ∧ (cards.length < 5 → evaluate_best cards = .error .TooFewCards) := by
  refine ⟨?_, ?_, ?_, ?_⟩
  · intro h67
    have h5 : ¬ cards.length < 5 := by omega
    have h5e : ¬ cards.length = 5 := by omega
    have hne : (cards.sublistsLen 5).map evaluate5 ≠ [] := by
      have hpos : 0 < (cards.sublistsLen 5).length := by
        rw [List.length_sublistsLen]
        exact Nat.choose_pos (by omega)
      intro hmap
      rw [List.map_eq_nil_iff] at hmap
      rw [hmap] at hpos
      simp at hpos
    obtain ⟨m, hm⟩ := pyMax_isSome hne
    refine ⟨m, ?_, ?_, ?_⟩
    · unfold evaluate_best
      rw [if_neg h5, if_neg h5e, hm]
    · obtain ⟨s, hs, hse⟩ := List.mem_map.1 (pyMax_spec _ _ hm).1
      rw [List.mem_sublistsLen] at hs
      exact ⟨s, hs.1, hs.2, hse⟩
    · intro s hsub hlen
      exact (pyMax_spec _ _ hm).2 _
        (List.mem_map_of_mem _ (List.mem_sublistsLen.2 ⟨hsub, hlen⟩))
  · intro h7
    rw [List.length_sublistsLen, h7]
    decide
  · intro h5
    unfold evaluate_best
    rw [if_neg (by omega), if_pos h5]
  · intro h
    unfold evaluate_best
    rw [if_pos h]

/-- Closed instance of C1 at a concrete 6-card input, all hypotheses
discharged. -/
theorem evaluate_best_max_of_subsets_witness :
    ∃ hv, evaluate_best
        [⟨14, .SPADES⟩, ⟨13, .SPADES⟩, ⟨12, .SPADES⟩, ⟨11, .SPADES⟩, ⟨10, .SPADES⟩, ⟨2, .HEARTS⟩]
        = .ok hv
      ∧ (∃ s, s.Sublist
            [⟨14, .SPADES⟩, ⟨13, .SPADES⟩, ⟨12, .SPADES⟩, ⟨11, .SPADES⟩, ⟨10, .SPADES⟩, ⟨2, .HEARTS⟩]
          ∧ s.length = 5 ∧ evaluate5 s = hv)
      ∧ ∀ s, s.Sublist
            [⟨14, .SPADES⟩, ⟨13, .SPADES⟩, ⟨12, .SPADES⟩, ⟨11, .SPADES⟩, ⟨10, .SPADES⟩, ⟨2, .HEARTS⟩]
          → s.length = 5 → hvLeB (evaluate5 s) hv = true :=
  (evaluate_best_max_of_subsets _).1 (Or.inl (by decide))

/-- C3: the wheel {A,2,3,4,5} of any single suit evaluates to a Straight
Flush with tiebreaker (5,), and compares strictly below the evaluation of
{6,5,4,3,2} of a single suit, which is a Straight Flush with
tiebreaker (6,). -/
theorem wheel_is_five_high_straight_flush (s : Suit) :
    evaluate5 [⟨14, s⟩, ⟨2, s⟩, ⟨3, s⟩, ⟨4, s⟩, ⟨5, s⟩]
        = ⟨HandCategory.STRAIGHT_FLUSH, [5]⟩
    ∧ evaluate5 [⟨6, s⟩, ⟨5, s⟩, ⟨4, s⟩, ⟨3, s⟩, ⟨2, s⟩]
        = ⟨HandCategory.STRAIGHT_FLUSH, [6]⟩
    ∧ hvLtB (evaluate5 [⟨14, s⟩, ⟨2, s⟩, ⟨3, s⟩, ⟨4, s⟩, ⟨5, s⟩])
        (evaluate5 [⟨6, s⟩, ⟨5, s⟩, ⟨4, s⟩, ⟨3, s⟩, ⟨2, s⟩]) = true := by
  cases s
  · exact ⟨by decide, by decide, by decide⟩
  · exact ⟨by decide, by decide, by decide⟩
  · exact ⟨by decide, by decide, by decide⟩
  · exact ⟨by decide, by decide, by decide⟩

/-- The labelled card list `validate_unique_cards` scans: every player's
hole cards tagged "player i hole" (players in order), then the board cards
tagged "board[j]". -/
def labeled_cards (hole_hands : List (List Card)) (board : List Card) :
    List (Origin × Card) :=
  ((hole_hands.enum.map (fun p => p.2.map (fun c => (Origin.playerHole p.1, c)))).flatten)
    ++ board.enum.map (fun p => (Origin.board p.1, p.2))

/-- Lookup in the `seen` association list of `validate_unique_cards`
(Python dict keyed by card; each card is inserted at most once). -/
def seenLookup : List (Card × Origin) → Card → Option Origin
  | [], _ => none
  | (c, o) :: rest, c0 => if c0 = c then some o else seenLookup rest c0

/-- The scan loop of `validate_unique_cards`: walk the labelled cards in
order, failing on the first card already seen (reporting the current and
the first origin), otherwise recording the card's origin. -/
def scanDup : List (Origin × Card) → List (Card × Origin) → Except Err Unit
  | [], _ => .ok ()
  | (o, c) :: rest, seen =>
    match seenLookup seen c with
    | some prev => .error (.DuplicateCard c o prev)
    | none => scanDup rest (seen ++ [(c, o)])

/-- `validate_unique_cards` from `game.py`. -/
def validate_unique_cards (hole_hands : List (List Card)) (board : List Card) :
    Except Err Unit :=
  scanDup (labeled_cards hole_hands board) []

/-- The hole-size check of `determine_winners`: the first player (in
order, starting at index `k`) holding fewer than 2 cards is reported. -/
def checkHoleSizes : List (List Card) → Nat → Except Err Unit
  | [], _ => .ok ()
  | hole :: rest, i =>
    if hole.length < 2 then .error (.TooFewHoleCards i)
    else checkHoleSizes rest (i + 1)

/-- The evaluation loop of `determine_winners`: each player's
`evaluate_best(hole + board)` in order, propagating the first failure. -/
def evalHands (board : List Card) : List (List Card) → Except Err (List HandValue)
  | [] => .ok []
  | hole :: rest =>
    match evaluate_best (hole ++ board) with
    | .error e => .error e
    | .ok hv =>
      match evalHands board rest with
      | .error e => .error e
      | .ok tl => .ok (hv :: tl)

/-- The winner comprehension of `determine_winners`: indices (from `k`
up) of the hand values equal to the best value. -/
def winnersFrom (best : HandValue) : List HandValue → Nat → List Nat
  | [], _ => []
  | hv :: rest, i =>
    if hv = best then i :: winnersFrom best rest (i + 1)
    else winnersFrom best rest (i + 1)

/-- Winner indices given the per-player hand values: all indices whose
value equals the maximum (`getD` default is unreachable: the caller's
list is nonempty). -/
def winnersOf (hand_values : List HandValue) : List Nat :=
  winnersFrom ((pyMax hand_values).getD ⟨0, []⟩) hand_values 0

/-- `determine_winners` from `game.py`: no players, duplicate cards and
short hole hands fail in that order; otherwise all indices attaining the
maximum hand value are returned together with every player's value. -/
def determine_winners (hole_hands : List (List Card)) (board : List Card) :
    Except Err (List Nat × List HandValue) :=
  if hole_hands.isEmpty then .error .NoPlayers
  else
    match validate_unique_cards hole_hands board with
    | .error e => .error e
    | .ok _ =>
      match checkHoleSizes hole_hands 0 with
      | .error e => .error e
      | .ok _ =>
        match evalHands board hole_hands with
        | .error e => .error e
        | .ok hand_values => .ok (winnersOf hand_values, hand_values)

theorem seenLookup_eq_none (s : List (Card × Origin)) (c : Card)
    (h : c ∉ s.map Prod.fst) : seenLookup s c = none := by
  induction s with
  | nil => rfl
  | cons p t ih =>
    obtain ⟨c1, o1⟩ := p
    simp only [List.map_cons, List.mem_cons] at h
    push_neg at h
    simp only [seenLookup, if_neg h.1]
    exact ih h.2

theorem seenLookup_append_of_none (s1 s2 : List (Card × Origin)) (c : Card)
    (h : seenLookup s1 c = none) : seenLookup (s1 ++ s2) c = seenLookup s2 c := by
  induction s1 with
  | nil => rfl
  | cons p t ih =>
    obtain ⟨c1, o1⟩ := p
    simp only [seenLookup] at h ⊢
    by_cases hc : c = c1
    · rw [if_pos hc] at h
      exact absurd h (by simp)
    · rw [if_neg hc] at h ⊢
      exact ih h

theorem scanDup_seen_extend (L1 : List (Origin × Card)) :
    ∀ (X : List (Origin × Card)) (seen : List (Card × Origin)),
    (∀ p ∈ L1, seenLookup seen p.2 = none) →
    (L1.map Prod.snd).Nodup →
    scanDup (L1 ++ X) seen = scanDup X (seen ++ L1.map (fun p => (p.2, p.1))) := by
  induction L1 with
  | nil =>
    intro X seen _ _
    simp
  | cons p t ih =>
    intro X seen hseen hnd
    obtain ⟨o, c⟩ := p
    have hc : seenLookup seen c = none := hseen (o, c) (List.mem_cons_self _ _)
    simp only [List.cons_append, scanDup, hc, List.append_eq]
    simp only [List.map_cons, List.nodup_cons] at hnd
    have step := ih X (seen ++ [(c, o)]) ?_ hnd.2
    · rw [step]
      simp [List.append_assoc]
    · intro q hq
      have hqn : seenLookup seen q.2 = none := hseen q (List.mem_cons_of_mem _ hq)
      rw [seenLookup_append_of_none _ _ _ hqn]
      have hne : q.2 ≠ c := by
        intro hqc
        exact hnd.1 (hqc ▸ List.mem_map_of_mem Prod.snd hq)
      simp [seenLookup, hne]

theorem scanDup_ok (L : List (Origin × Card)) (h : (L.map Prod.snd).Nodup) :
    scanDup L [] = .ok () := by
  have := scanDup_seen_extend L [] [] (by intro p _; rfl) h
  simpa using this

theorem seenLookup_first (A : List (Origin × Card)) (o1 : Origin) (c : Card)
    (B : List (Origin × Card)) (hA : c ∉ A.map Prod.snd) :
    seenLookup ((A ++ (o1, c) :: B).map (fun p => (p.2, p.1))) c = some o1 := by
  induction A with
  | nil => simp [seenLookup]
  | cons q t ih =>
    obtain ⟨oq, cq⟩ := q
    simp only [List.map_cons, List.mem_cons] at hA
    push_neg at hA
    simp only [List.cons_append, List.map_cons, seenLookup, if_neg hA.1]
    exact ih hA.2

theorem scanDup_err (L1 : List (Origin × Card)) (o : Origin) (c : Card)
    (L2 A B : List (Origin × Card)) (o1 : Origin)
    (hsplit : L1 = A ++ (o1, c) :: B) (hnd : (L1.map Prod.snd).Nodup)
    (hA : c ∉ A.map Prod.snd) :
    scanDup (L1 ++ (o, c) :: L2) [] = .error (.DuplicateCard c o o1) := by
  rw [scanDup_seen_extend L1 ((o, c) :: L2) [] (by intro p _; rfl) hnd]
  rw [List.nil_append]
  rw [hsplit]
  simp only [scanDup, seenLookup_first A o1 c B hA]

theorem exists_first_repeat {α : Type} [DecidableEq α] :
    ∀ (L pre : List α), pre.Nodup →
    (pre ++ L).Nodup ∨
      ∃ l1 x l2, pre ++ L = (pre ++ l1) ++ x :: l2 ∧ (pre ++ l1).Nodup ∧ x ∈ pre ++ l1 := by
  intro L
  induction L with
  | nil =>
    intro pre hpre
    left
    simpa using hpre
  | cons x t ih =>
    intro pre hpre
    by_cases hx : x ∈ pre
    · right
      exact ⟨[], x, t, by simp, by simpa using hpre, by simpa using hx⟩
    · have hpre' : (pre ++ [x]).Nodup := by
        simp [List.nodup_append, hpre, hx]
      rcases ih (pre ++ [x]) hpre' with h | ⟨l1, y, l2, heq, hnd, hy⟩
      · left
        simpa [List.append_assoc] using h
      · right
        refine ⟨x :: l1, y, l2, ?_, ?_, ?_⟩
        · have : pre ++ x :: t = (pre ++ [x]) ++ t := by simp
          rw [this, heq]
          simp
        · have : pre ++ x :: l1 = (pre ++ [x]) ++ l1 := by simp
          rw [this]
          exact hnd
        · have : pre ++ x :: l1 = (pre ++ [x]) ++ l1 := by simp
          rw [this]
          exact hy

theorem map_eq_append_cons_split {α β : Type} (f : α → β) :
    ∀ (m1 : List β) (l : List α) (y : β) (m2 : List β), l.map f = m1 ++ y :: m2 →
    ∃ l1 a l2, l = l1 ++ a :: l2 ∧ l1.map f = m1 ∧ f a = y ∧ l2.map f = m2 := by
  intro m1
  induction m1 with
  | nil =>
    intro l y m2 h
    cases l with
    | nil => simp at h
    | cons a l' =>
      simp only [List.map_cons, List.nil_append, List.cons.injEq] at h
      exact ⟨[], a, l', by simp, rfl, h.1, h.2⟩
  | cons b m1' ih =>
    intro l y m2 h
    cases l with
    | nil => simp at h
    | cons a l' =>
      simp only [List.map_cons, List.cons_append, List.cons.injEq] at h
      obtain ⟨l1, a1, l2, hsplit, hm1, hy, hm2⟩ := ih l' y m2 h.2
      exact ⟨a :: l1, a1, l2, by rw [hsplit]; rfl, by simp [h.1, hm1], hy, hm2⟩

theorem first_mem_split :
    ∀ (L : List (Origin × Card)) (c : Card), c ∈ L.map Prod.snd →
    ∃ A p B, L = A ++ p :: B ∧ p.2 = c ∧ c ∉ A.map Prod.snd := by
  intro L
  induction L with
  | nil => intro c hc; simp at hc
  | cons q t ih =>
    intro c hc
    by_cases hq : q.2 = c
    · exact ⟨[], q, t, by simp, hq, by simp⟩
    · have hct : c ∈ t.map Prod.snd := by
        rcases List.mem_cons.1 hc with h | h
        · exact absurd h.symm hq
        · exact h
      obtain ⟨A, p, B, hsplit, hp, hA⟩ := ih c hct
      refine ⟨q :: A, p, B, by rw [hsplit]; rfl, hp, ?_⟩
      simp only [List.map_cons, List.mem_cons]
      push_neg
      exact ⟨fun h => hq h.symm, hA⟩

theorem validate_unique_cards_ok (hole_hands : List (List Card)) (board : List Card)
    (h : ((labeled_cards hole_hands board).map Prod.snd).Nodup) :
    validate_unique_cards hole_hands board = .ok () :=
  scanDup_ok _ h

theorem validate_unique_cards_err (hole_hands : List (List Card)) (board : List Card)
    (h : ¬ ((labeled_cards hole_hands board).map Prod.snd).Nodup) :
    ∃ L1 o c L2 A o1 B,
      labeled_cards hole_hands board = L1 ++ (o, c) :: L2
      ∧ (L1.map Prod.snd).Nodup
      ∧ L1 = A ++ (o1, c) :: B
      ∧ c ∉ A.map Prod.snd
      ∧ validate_unique_cards hole_hands board = .error (.DuplicateCard c o o1) := by
  rcases exists_first_repeat ((labeled_cards hole_hands board).map Prod.snd) [] List.nodup_nil
    with hnd | ⟨m1, x, m2, heq, hm1nd, hxm⟩
  · exact absurd (by simpa using hnd) h
  · rw [List.nil_append] at heq hm1nd hxm
    obtain ⟨L1, p, L2, hsplit, hM1, hx, hM2⟩ := map_eq_append_cons_split Prod.snd m1 _ x m2 heq
    obtain ⟨o, c⟩ := p
    have hc : (c : Card) = x := hx
    subst hc
    have hcm : c ∈ L1.map Prod.snd := by
      rw [hM1]
      exact hxm
    obtain ⟨A, p1, B, hsplit1, hp1, hA⟩ := first_mem_split L1 c hcm
    obtain ⟨o1, c1⟩ := p1
    have hc1 : (c1 : Card) = c := hp1
    subst hc1
    refine ⟨L1, o, c1, L2, A, o1, B, hsplit, ?_, hsplit1, hA, ?_⟩
    · rw [hM1]
      exact hm1nd
    · unfold validate_unique_cards
      rw [hsplit]
      exact scanDup_err L1 o c1 L2 A B o1 hsplit1 (by rw [hM1]; exact hm1nd) hA

theorem checkHoleSizes_ok : ∀ (l : List (List Card)) (k : Nat),
    (∀ h ∈ l, 2 ≤ h.length) → checkHoleSizes l k = .ok () := by
  intro l
  induction l with
  | nil => intro k _; rfl
  | cons hole t ih =>
    intro k hall
    have h2 : 2 ≤ hole.length := hall hole (List.mem_cons_self _ _)
    simp only [checkHoleSizes, if_neg (by omega : ¬ hole.length < 2)]
    exact ih (k + 1) (fun h hm => hall h (List.mem_cons_of_mem _ hm))

theorem checkHoleSizes_err : ∀ (l : List (List Card)) (k i : Nat),
    i < l.length → (l.getD i []).length < 2 →
    (∀ j, j < i → 2 ≤ (l.getD j []).length) →
    checkHoleSizes l k = .error (.TooFewHoleCards (k + i)) := by
  intro l
  induction l with
  | nil => intro k i hi _ _; simp at hi
  | cons hole t ih =>
    intro k i hi hshort hprev
    cases i with
    | zero =>
      simp only [List.getD_cons_zero] at hshort
      simp only [checkHoleSizes, if_pos hshort, Nat.add_zero]
    | succ i' =>
      have h2 : 2 ≤ hole.length := by
        have := hprev 0 (Nat.succ_pos i')
        simpa using this
      simp only [checkHoleSizes, if_neg (by omega : ¬ hole.length < 2)]
      have hrec := ih (k + 1) i' (by simpa using hi) (by simpa using hshort) ?_
      · rw [hrec]
        have : k + 1 + i' = k + (i' + 1) := by omega
        rw [this]
      · intro j hj
        have := hprev (j + 1) (by omega)
        simpa using this

theorem evaluate_best_ok (cards : List Card) (h5 : 5 ≤ cards.length) :
    ∃ hv, evaluate_best cards = .ok hv := by
  by_cases he : cards.length = 5
  · refine ⟨evaluate5 cards, ?_⟩
    unfold evaluate_best
    rw [if_neg (by omega), if_pos he]
  · have hne : (cards.sublistsLen 5).map evaluate5 ≠ [] := by
      have hpos : 0 < (cards.sublistsLen 5).length := by
        rw [List.length_sublistsLen]
        exact Nat.choose_pos (by omega)
      intro hmap
      rw [List.map_eq_nil_iff] at hmap
      rw [hmap] at hpos
      simp at hpos
    obtain ⟨m, hm⟩ := pyMax_isSome hne
    refine ⟨m, ?_⟩
    unfold evaluate_best
    rw [if_neg (by omega), if_neg he, hm]

theorem evalHands_ok (board : List Card) : ∀ (l : List (List Card)),
    (∀ h ∈ l, 5 ≤ (h ++ board).length) →
    ∃ hvs, evalHands board l = .ok hvs ∧ hvs.length = l.length
      ∧ ∀ i, i < l.length →
          evaluate_best (l.getD i [] ++ board) = .ok (hvs.getD i ⟨0, []⟩) := by
  intro l
  induction l with
  | nil =>
    intro _
    exact ⟨[], rfl, rfl, fun i hi => by simp at hi⟩
  | cons hole t ih =>
    intro hall
    obtain ⟨hv, hok⟩ := evaluate_best_ok (hole ++ board)
      (hall hole (List.mem_cons_self _ _))
    obtain ⟨tl, htl, hlen, hidx⟩ := ih (fun h hm => hall h (List.mem_cons_of_mem _ hm))
    refine ⟨hv :: tl, ?_, by simp [hlen], ?_⟩
    · simp only [evalHands, hok, htl]
    · intro i hi
      cases i with
      | zero => simpa using hok
      | succ i' => simpa using hidx i' (by simpa using hi)

theorem winnersFrom_mem (best : HandValue) : ∀ (l : List HandValue) (k i : Nat),
    i ∈ winnersFrom best l k ↔
      ∃ j, j < l.length ∧ i = k + j ∧ l.getD j ⟨0, []⟩ = best := by
  intro l
  induction l with
  | nil =>
    intro k i
    simp [winnersFrom]
  | cons hv t ih =>
    intro k i
    by_cases hb : hv = best
    · simp only [winnersFrom, if_pos hb, List.mem_cons]
      constructor
      · intro h
        rcases h with h | h
        · exact ⟨0, by simp, by omega, by simpa using hb⟩
        · obtain ⟨j, hj, hij, hjd⟩ := (ih (k + 1) i).1 h
          exact ⟨j + 1, by simpa using hj, by omega, by simpa using hjd⟩
      · intro ⟨j, hj, hij, hjd⟩
        cases j with
        | zero => left; omega
        | succ j' =>
          right
          exact (ih (k + 1) i).2 ⟨j', by simpa using hj, by omega, by simpa using hjd⟩
    · simp only [winnersFrom, if_neg hb]
      constructor
      · intro h
        obtain ⟨j, hj, hij, hjd⟩ := (ih (k + 1) i).1 h
        exact ⟨j + 1, by simpa using hj, by omega, by simpa using hjd⟩
      · intro ⟨j, hj, hij, hjd⟩
        cases j with
        | zero =>
          simp only [List.getD_cons_zero] at hjd
          exact absurd hjd hb
        | succ j' =>
          exact (ih (k + 1) i).2 ⟨j', by simpa using hj, by omega, by simpa using hjd⟩

theorem determine_winners_ne (hole_hands : List (List Card)) (board : List Card)
    (hne : hole_hands ≠ []) :
    determine_winners hole_hands board =
      (match validate_unique_cards hole_hands board with
      | .error e => .error e
      | .ok _ =>
        match checkHoleSizes hole_hands 0 with
        | .error e => .error e
        | .ok _ =>
          match evalHands board hole_hands with
          | .error e => .error e
          | .ok hand_values => .ok (winnersOf hand_values, hand_values)) := by
  cases hole_hands with
  | nil => exact absurd rfl hne
  | cons a t => rfl

/-- C2 (amended): `determine_winners` fails with NoPlayers on an empty
player list; else with DuplicateCard at the first collision of the
player-then-board scan, reporting both origins; else with
TooFewHoleCards at the first player holding fewer than 2 cards; and
otherwise — provided every player's hole + board has at least 5 cards,
so that evaluation succeeds — returns exactly the indices attaining the
maximum HandValue together with the full per-player HandValue list. -/
theorem determine_winners_spec :
    (∀ board, determine_winners [] board = .error .NoPlayers)
    ∧ (∀ hole_hands board, hole_hands ≠ [] →
        ¬ ((labeled_cards hole_hands board).map Prod.snd).Nodup →
        ∃ L1 o c L2 A o1 B,
          labeled_cards hole_hands board = L1 ++ (o, c) :: L2
          ∧ (L1.map Prod.snd).Nodup
          ∧ L1 = A ++ (o1, c) :: B
          ∧ c ∉ A.map Prod.snd
          ∧ determine_winners hole_hands board = .error (.DuplicateCard c o o1))
    ∧ (∀ hole_hands board, hole_hands ≠ [] →
        ((labeled_cards hole_hands board).map Prod.snd).Nodup →
        ∀ i, i < hole_hands.length → (hole_hands.getD i []).length < 2 →
        (∀ j, j < i → 2 ≤ (hole_hands.getD j []).length) →
        determine_winners hole_hands board = .error (.TooFewHoleCards i))
    ∧ (∀ hole_hands board, hole_hands ≠ [] →
        ((labeled_cards hole_hands board).map Prod.snd).Nodup →
        (∀ h ∈ hole_hands, 2 ≤ h.length) →
        (∀ h ∈ hole_hands, 5 ≤ (h ++ board).length) →
        ∃ ws hvs m,
          determine_winners hole_hands board = .ok (ws, hvs)
          ∧ hvs.length = hole_hands.length
          ∧ (∀ i, i < hole_hands.length →
              evaluate_best (hole_hands.getD i [] ++ board) = .ok (hvs.getD i ⟨0, []⟩))
          ∧ m ∈ hvs
          ∧ (∀ v ∈ hvs, hvLeB v m = true)
          ∧ (∀ i, i ∈ ws ↔ i < hvs.length ∧ hvs.getD i ⟨0, []⟩ = m)) := by
  refine ⟨fun board => rfl, ?_, ?_, ?_⟩
  · intro hole_hands board hne hdup
    obtain ⟨L1, o, c, L2, A, o1, B, hsplit, hnd, hsplit1, hA, herr⟩ :=
      validate_unique_cards_err hole_hands board hdup
    refine ⟨L1, o, c, L2, A, o1, B, hsplit, hnd, hsplit1, hA, ?_⟩
    rw [determine_winners_ne hole_hands board hne, herr]
  · intro hole_hands board hne hnd i hi hshort hprev
    rw [determine_winners_ne hole_hands board hne,
      validate_unique_cards_ok hole_hands board hnd]
    have hchk := checkHoleSizes_err hole_hands 0 i hi hshort hprev
    rw [Nat.zero_add] at hchk
    rw [hchk]
  · intro hole_hands board hne hnd h2 h5
    obtain ⟨hvs, heval, hlen, hidx⟩ := evalHands_ok board hole_hands h5
    have hvne : hvs ≠ [] := by
      intro hnil
      rw [hnil] at hlen
      exact hne (List.eq_nil_of_length_eq_zero hlen.symm)
    obtain ⟨m, hm⟩ := pyMax_isSome hvne
    refine ⟨winnersOf hvs, hvs, m, ?_, hlen, hidx, (pyMax_spec _ _ hm).1,
      (pyMax_spec _ _ hm).2, ?_⟩
    · rw [determine_winners_ne hole_hands board hne,
        validate_unique_cards_ok hole_hands board hnd,
        checkHoleSizes_ok hole_hands 0 h2, heval]
    · intro i
      unfold winnersOf
      rw [hm]
      simp only [Option.getD_some]
      rw [winnersFrom_mem]
      constructor
      · intro ⟨j, hj, hij, hjd⟩
        have : i = j := by omega
        subst this
        exact ⟨hj, hjd⟩
      · intro ⟨hi, hid⟩
        exact ⟨i, hi, by omega, hid⟩

/-- C2 counterexample: a single player with two hole cards and an empty
board passes the no-players, duplicate and hole-size checks, yet
`determine_winners` raises the evaluator's TooFewCards error instead of
returning a winner set. -/
theorem determine_winners_short_board_cex :
    ([[(⟨2, Suit.CLUBS⟩ : Card), ⟨3, Suit.CLUBS⟩]] : List (List Card)) ≠ []
    ∧ validate_unique_cards [[⟨2, Suit.CLUBS⟩, ⟨3, Suit.CLUBS⟩]] [] = .ok ()
    ∧ 2 ≤ ([(⟨2, Suit.CLUBS⟩ : Card), ⟨3, Suit.CLUBS⟩] : List Card).length
    ∧ determine_winners [[⟨2, Suit.CLUBS⟩, ⟨3, Suit.CLUBS⟩]] [] = .error .TooFewCards :=
  ⟨by decide, rfl, by decide, rfl⟩

/-- Closed instance of C2's success clause at a concrete two-player
showdown, all hypotheses discharged. -/
theorem determine_winners_spec_witness :
    ∃ ws hvs m,
      determine_winners
          [[⟨14, .SPADES⟩, ⟨13, .SPADES⟩], [⟨12, .HEARTS⟩, ⟨12, .DIAMONDS⟩]]
          [⟨2, .CLUBS⟩, ⟨3, .CLUBS⟩, ⟨4, .CLUBS⟩, ⟨5, .DIAMONDS⟩, ⟨9, .HEARTS⟩]
        = .ok (ws, hvs)
      ∧ hvs.length =
          ([[⟨14, .SPADES⟩, ⟨13, .SPADES⟩], [⟨12, .HEARTS⟩, ⟨12, .DIAMONDS⟩]] :
            List (List Card)).length
      ∧ (∀ i, i < ([[⟨14, .SPADES⟩, ⟨13, .SPADES⟩], [⟨12, .HEARTS⟩, ⟨12, .DIAMONDS⟩]] :
            List (List Card)).length →
          evaluate_best
              (([[⟨14, .SPADES⟩, ⟨13, .SPADES⟩], [⟨12, .HEARTS⟩, ⟨12, .DIAMONDS⟩]] :
                List (List Card)).getD i []
                ++ [⟨2, .CLUBS⟩, ⟨3, .CLUBS⟩, ⟨4, .CLUBS⟩, ⟨5, .DIAMONDS⟩, ⟨9, .HEARTS⟩])
            = .ok (hvs.getD i ⟨0, []⟩))
      ∧ m ∈ hvs
      ∧ (∀ v ∈ hvs, hvLeB v m = true)
      ∧ (∀ i, i ∈ ws ↔ i < hvs.length ∧ hvs.getD i ⟨0, []⟩ = m) :=
  determine_winners_spec.2.2.2
    [[⟨14, .SPADES⟩, ⟨13, .SPADES⟩], [⟨12, .HEARTS⟩, ⟨12, .DIAMONDS⟩]]
    [⟨2, .CLUBS⟩, ⟨3, .CLUBS⟩, ⟨4, .CLUBS⟩, ⟨5, .DIAMONDS⟩, ⟨9, .HEARTS⟩]
    (by decide) (by decide) (by decide) (by decide)

/-- Deck from `cards.py`: the card list `_cards`; the live end (where
Python's `pop()` removes) is the end of the list. -/
structure Deck where
  cards : List Card
deriving DecidableEq, Repr

/-- `Deck.draw`: pop one card from the end of the list; `DeckExhausted`
(Python `IndexError`) on an empty deck. The next deck state is returned
explicitly; on failure the deck is unchanged. -/
def Deck.draw (d : Deck) : Except Err Card × Deck :=
  match d.cards.getLast? with
  | none => (.error .DeckExhausted, d)
  | some c => (.ok c, ⟨d.cards.dropLast⟩)

/-- The list comprehension `[self.draw() for _ in range(n)]` in
`draw_many`: `n` repeated draws, collecting the cards in draw order and
propagating a failed draw (unreachable under `draw_many`'s checks). -/
def drawRepeat : Nat → Deck → Except Err (List Card) × Deck
  | 0, d => (.ok [], d)
  | n + 1, d =>
    match Deck.draw d with
    | (.ok c, d1) =>
      match drawRepeat n d1 with
      | (.ok cs, d2) => (.ok (c :: cs), d2)
      | (.error e, d2) => (.error e, d2)
    | (.error e, d1) => (.error e, d1)

/-- `Deck.draw_many` from `cards.py`: a negative count is
`InvalidArgument` and a count beyond the remaining cards is
`InsufficientCards`, both raised before any card is removed; otherwise
`n` repeated draws. -/
def Deck.draw_many (n : Int) (d : Deck) : Except Err (List Card) × Deck :=
  if n < 0 then (.error .InvalidArgument, d)
  else if (d.cards.length : Int) < n then (.error .InsufficientCards, d)
  else drawRepeat n.toNat d

/-- `Deck.peek` from `cards.py`: a negative count is `InvalidArgument`;
otherwise the Python slice `_cards[-n:]`, whose start index is
`max(len - n, 0)` when `n > 0` but 0 when `n = 0` (since `-0` is `0`),
so `peek 0` yields the entire list. The deck is returned unchanged. -/
def Deck.peek (n : Int) (d : Deck) : Except Err (List Card) × Deck :=
  if n < 0 then (.error .InvalidArgument, d)
  else if n = 0 then (.ok d.cards, d)
  else (.ok (d.cards.drop (d.cards.length - n.toNat)), d)

/-- `Deck.remaining` from `cards.py`: a copy of the remaining cards. -/
def Deck.remaining (d : Deck) : List Card :=
  d.cards

/-- Python `text.strip()` on a string modelled as its character list:
leading and trailing whitespace removed. -/
def pyStrip (text : List Char) : List Char :=
  ((text.dropWhile Char.isWhitespace).reverse.dropWhile Char.isWhitespace).reverse

/-- `Rank.from_char` from `cards.py`: the rank character, upper-cased,
mapped to its rank integer; any other character is an invalid format. -/
def Rank.from_char (ch : Char) : Except Err Nat :=
  match ch.toUpper with
  | '2' => .ok 2
  | '3' => .ok 3
  | '4' => .ok 4
  | '5' => .ok 5
  | '6' => .ok 6
  | '7' => .ok 7
  | '8' => .ok 8
  | '9' => .ok 9
  | 'T' => .ok 10
  | 'J' => .ok 11
  | 'Q' => .ok 12
  | 'K' => .ok 13
  | 'A' => .ok 14
  | _ => .error .InvalidCardFormat

/-- `Suit.from_char` from `cards.py`: C, D, H or S (case-insensitive). -/
def Suit.from_char (ch : Char) : Except Err Suit :=
  match ch.toUpper with
  | 'C' => .ok .CLUBS
  | 'D' => .ok .DIAMONDS
  | 'H' => .ok .HEARTS
  | 'S' => .ok .SPADES
  | _ => .error .InvalidCardFormat

/-- `Card.from_str` from `cards.py`: the text is stripped first, must
then have exactly 2 characters, and rank then suit must parse. -/
def Card.from_str (text : List Char) : Except Err Card :=
  match pyStrip text with
  | [r_ch, s_ch] =>
    match Rank.from_char r_ch with
    | .error e => .error e
    | .ok r =>
      match Suit.from_char s_ch with
      | .error e => .error e
      | .ok s => .ok ⟨r, s⟩
  | _ => .error .InvalidCardFormat

theorem drawRepeat_ok : ∀ (n : Nat) (l : List Card), n ≤ l.length →
    drawRepeat n ⟨l⟩ =
      (.ok (l.drop (l.length - n)).reverse, ⟨l.take (l.length - n)⟩) := by
  intro n
  induction n with
  | zero =>
    intro l _
    simp [drawRepeat, List.drop_length, List.take_length]
  | succ n ih =>
    intro l h
    rcases l.eq_nil_or_concat' with rfl | ⟨ys, y, rfl⟩
    · simp at h
    · have hlen : (ys ++ [y]).length = ys.length + 1 := by simp
      have hn : n ≤ ys.length := by omega
      have hdraw : Deck.draw ⟨ys ++ [y]⟩ = (.ok y, ⟨ys⟩) := by
        simp [Deck.draw, List.getLast?_concat, List.dropLast_concat]
      have hk : (ys ++ [y]).length - (n + 1) = ys.length - n := by omega
      simp only [drawRepeat, hdraw, ih ys hn, hk]
      have hkle : ys.length - n ≤ ys.length := by omega
      rw [List.take_append_of_le_length hkle, List.drop_append_of_le_length hkle]
      simp

theorem drawRepeat_length : ∀ (n : Nat) (l : List Card), n ≤ l.length →
    ((l.drop (l.length - n)).reverse).length = n := by
  intro n l h
  simp only [List.length_reverse, List.length_drop]
  omega

/-- C7: `draw_many(n)` fails with InvalidArgument exactly when n is
negative and with InsufficientCards exactly when n exceeds the remaining
count, leaving the deck unchanged in both failure cases; on success it
removes and returns exactly n cards, in the order the same n repeated
`draw()` calls produce (the last n cards of the list, last first). -/
theorem draw_many_spec (n : Int) (d : Deck) :
    (n < 0 → Deck.draw_many n d = (.error .InvalidArgument, d))
    ∧ (0 ≤ n → (d.cards.length : Int) < n →
        Deck.draw_many n d = (.error .InsufficientCards, d))
    ∧ (0 ≤ n → n ≤ (d.cards.length : Int) →
        Deck.draw_many n d =
          (.ok (d.cards.drop (d.cards.length - n.toNat)).reverse,
            ⟨d.cards.take (d.cards.length - n.toNat)⟩)
        ∧ Deck.draw_many n d = drawRepeat n.toNat d
        ∧ ((d.cards.drop (d.cards.length - n.toNat)).reverse).length = n.toNat)
    ∧ ((Deck.draw_many n d).1 = .error .InvalidArgument ↔ n < 0)
    ∧ ((Deck.draw_many n d).1 = .error .InsufficientCards ↔
        0 ≤ n ∧ (d.cards.length : Int) < n) := by
  have hneg : n < 0 → Deck.draw_many n d = (.error .InvalidArgument, d) := by
    intro h
    unfold Deck.draw_many
    rw [if_pos h]
  have hshort : 0 ≤ n → (d.cards.length : Int) < n →
      Deck.draw_many n d = (.error .InsufficientCards, d) := by
    intro h0 hgt
    unfold Deck.draw_many
    rw [if_neg (by omega), if_pos hgt]
  have hok : 0 ≤ n → n ≤ (d.cards.length : Int) →
      Deck.draw_many n d =
        (.ok (d.cards.drop (d.cards.length - n.toNat)).reverse,
          ⟨d.cards.take (d.cards.length - n.toNat)⟩) := by
    intro h0 hle
    unfold Deck.draw_many
    rw [if_neg (by omega), if_neg (by omega)]
    exact drawRepeat_ok n.toNat d.cards (by omega)
  refine ⟨hneg, hshort, ?_, ?_, ?_⟩
  · intro h0 hle
    refine ⟨hok h0 hle, ?_, drawRepeat_length n.toNat d.cards (by omega)⟩
    unfold Deck.draw_many
    rw [if_neg (by omega), if_neg (by omega)]
  · by_cases h : n < 0
    · rw [hneg h]
      simp [h]
    · by_cases hgt : (d.cards.length : Int) < n
      · rw [hshort (by omega) hgt]
        simp
        omega
      · rw [hok (by omega) (by omega)]
        simp
        omega
  · by_cases h : n < 0
    · rw [hneg h]
      simp
      omega
    · by_cases hgt : (d.cards.length : Int) < n
      · rw [hshort (by omega) hgt]
        simp
        omega
      · rw [hok (by omega) (by omega)]
        simp
        omega

/-- Closed instance of C7 at a concrete three-card deck, drawing two. -/
theorem draw_many_spec_witness :
    Deck.draw_many 2 ⟨[⟨2, .CLUBS⟩, ⟨3, .CLUBS⟩, ⟨4, .CLUBS⟩]⟩ =
        (.ok [⟨4, .CLUBS⟩, ⟨3, .CLUBS⟩], ⟨[⟨2, .CLUBS⟩]⟩)
      ∧ Deck.draw_many 2 ⟨[⟨2, .CLUBS⟩, ⟨3, .CLUBS⟩, ⟨4, .CLUBS⟩]⟩ =
        drawRepeat 2 ⟨[⟨2, .CLUBS⟩, ⟨3, .CLUBS⟩, ⟨4, .CLUBS⟩]⟩ := by
  have h := (draw_many_spec 2 ⟨[⟨2, .CLUBS⟩, ⟨3, .CLUBS⟩, ⟨4, .CLUBS⟩]⟩).2.2.1
    (by decide) (by decide)
  refine ⟨?_, h.2.1⟩
  rw [h.1]
  rfl

theorem rank_from_char_error_eq (ch : Char) (e : Err)
    (h : Rank.from_char ch = .error e) : e = .InvalidCardFormat := by
  unfold Rank.from_char at h
  split at h <;> simp_all

theorem suit_from_char_error_eq (ch : Char) (e : Err)
    (h : Suit.from_char ch = .error e) : e = .InvalidCardFormat := by
  unfold Suit.from_char at h
  split at h <;> simp_all

theorem from_str_not_two (text : List Char) (h : (pyStrip text).length ≠ 2) :
    Card.from_str text = .error .InvalidCardFormat := by
  unfold Card.from_str
  rcases hp : pyStrip text with _ | ⟨a, _ | ⟨b, _ | ⟨c, t⟩⟩⟩
  · simp only [hp]
  · simp only [hp]
  · rw [hp] at h
    simp at h
  · simp only [hp]

theorem from_str_parse_ok (text : List Char) (rc sc : Char) (r : Nat) (s : Suit)
    (hp : pyStrip text = [rc, sc]) (hr : Rank.from_char rc = .ok r)
    (hs : Suit.from_char sc = .ok s) : Card.from_str text = .ok ⟨r, s⟩ := by
  unfold Card.from_str
  simp only [hp, hr, hs]

theorem from_str_rank_err (text : List Char) (rc sc : Char) (e : Err)
    (hp : pyStrip text = [rc, sc]) (hr : Rank.from_char rc = .error e) :
    Card.from_str text = .error e := by
  unfold Card.from_str
  simp only [hp, hr]

theorem from_str_suit_err (text : List Char) (rc sc : Char) (r : Nat) (e : Err)
    (hp : pyStrip text = [rc, sc]) (hr : Rank.from_char rc = .ok r)
    (hs : Suit.from_char sc = .error e) : Card.from_str text = .error e := by
  unfold Card.from_str
  simp only [hp, hr, hs]

/-- C8 (amended): card parsing accepts exactly the 2-character codes of a
recognised rank character followed by a recognised suit character,
case-insensitively, after stripping surrounding whitespace (Python
`text.strip()`); it fails with InvalidCardFormat whenever the stripped
text's length is not 2 or either character is unrecognised. -/
theorem from_str_spec (text : List Char) :
    ((pyStrip text).length ≠ 2 → Card.from_str text = .error .InvalidCardFormat)
    ∧ (∀ rc sc, pyStrip text = [rc, sc] →
        ((Rank.from_char rc = .error .InvalidCardFormat
            ∨ Suit.from_char sc = .error .InvalidCardFormat) →
          Card.from_str text = .error .InvalidCardFormat)
        ∧ (∀ r s, Rank.from_char rc = .ok r → Suit.from_char sc = .ok s →
            Card.from_str text = .ok ⟨r, s⟩))
    ∧ (∀ c, Card.from_str text = .ok c →
        (pyStrip text).length = 2
        ∧ ∃ rc sc r s, pyStrip text = [rc, sc]
            ∧ Rank.from_char rc = .ok r ∧ Suit.from_char sc = .ok s ∧ c = ⟨r, s⟩) := by
  refine ⟨from_str_not_two text, ?_, ?_⟩
  · intro rc sc hp
    constructor
    · intro herr
      rcases herr with h | h
      · exact from_str_rank_err text rc sc _ hp h
      · cases hr : Rank.from_char rc with
        | error e =>
          rw [rank_from_char_error_eq rc e hr] at hr
          exact from_str_rank_err text rc sc _ hp hr
        | ok r =>
          exact from_str_suit_err text rc sc r _ hp hr h
    · intro r s hr hs
      exact from_str_parse_ok text rc sc r s hp hr hs
  · intro c hok
    by_cases hl : (pyStrip text).length = 2
    · rcases hp : pyStrip text with _ | ⟨rc, _ | ⟨sc, _ | ⟨x, t⟩⟩⟩
      · rw [hp] at hl
        simp at hl
      · rw [hp] at hl
        simp at hl
      · cases hr : Rank.from_char rc with
        | error e =>
          rw [from_str_rank_err text rc sc e hp hr] at hok
          cases hok
        | ok r =>
          cases hs : Suit.from_char sc with
          | error e =>
            rw [from_str_suit_err text rc sc r e hp hr hs] at hok
            cases hok
          | ok s =>
            rw [from_str_parse_ok text rc sc r s hp hr hs] at hok
            refine ⟨by simp, rc, sc, r, s, rfl, hr, hs, ?_⟩
            cases hok
            rfl
      · rw [hp] at hl
        simp at hl
    · rw [from_str_not_two text hl] at hok
      cases hok

/-- C8 counterexample: an input of length 4 (untrimmed " AS ") parses
successfully, though the claim requires failure for every input whose
length is not 2. -/
theorem from_str_untrimmed_cex :
    ([' ', 'A', 'S', ' '] : List Char).length ≠ 2
    ∧ Card.from_str [' ', 'A', 'S', ' '] = .ok ⟨14, Suit.SPADES⟩ :=
  ⟨by decide, rfl⟩

/-- Closed instance of C8's acceptance clause at the lower-case code
"as", all hypotheses discharged. -/
theorem from_str_spec_witness :
    Card.from_str ['a', 's'] = .ok ⟨14, Suit.SPADES⟩ :=
  ((from_str_spec ['a', 's']).2.1 'a' 's' rfl).2 14 Suit.SPADES rfl rfl

/-- C9 (the code at the failing input): `peek 0` on a two-card deck
returns the entire card list, not the last 0 cards, because the Python
slice `_cards[-0:]` starts at index 0; the deck itself is unchanged. -/
theorem peek_zero_returns_all_cex :
    Deck.peek 0 ⟨[⟨2, Suit.CLUBS⟩, ⟨3, Suit.CLUBS⟩]⟩
      = (.ok [⟨2, Suit.CLUBS⟩, ⟨3, Suit.CLUBS⟩],
          ⟨[⟨2, Suit.CLUBS⟩, ⟨3, Suit.CLUBS⟩]⟩)
    ∧ ([(⟨2, Suit.CLUBS⟩ : Card), ⟨3, Suit.CLUBS⟩] : List Card) ≠ [] :=
  ⟨rfl, by decide⟩

/-- CallDecision from `strategy.py` (chip amounts and probabilities as
exact rationals). -/
structure CallDecision where
  pot : Rat
  to_call : Rat
  win_prob : Rat
  tie_prob : Rat
  risk_factor : Rat
deriving DecidableEq, Repr

/-- `CallDecision.lose_prob`: 1 − win − tie, clamped into [0, 1]. -/
def CallDecision.lose_prob (d : CallDecision) : Rat :=
  max 0 (min 1 (1 - d.win_prob - d.tie_prob))

/-- `ev_call_chips` from `strategy.py`: chip-linear expected value of a
call against a fold baseline of 0. -/
def ev_call_chips (d : CallDecision) : Rat :=
  d.win_prob * d.pot
    + d.tie_prob * (0.5 * d.pot - 0.5 * d.to_call)
    - d.lose_prob * d.to_call

/-- C5: for every CallDecision, `ev_call_chips` equals
win·pot + tie·(0.5·pot − 0.5·to_call) − lose·to_call with
lose = 1 − win − tie clamped to [0, 1]; and the decision
(pot=100, to_call=50, win=1, tie=0) has EV exactly 100. -/
theorem ev_call_chips_formula (d : CallDecision) :
    ev_call_chips d =
      d.win_prob * d.pot
        + d.tie_prob * (0.5 * d.pot - 0.5 * d.to_call)
        - max 0 (min 1 (1 - d.win_prob - d.tie_prob)) * d.to_call
    ∧ ev_call_chips ⟨100, 50, 1, 0, 0⟩ = 100 := by
  constructor
  · rfl
  · norm_num [ev_call_chips, CallDecision.lose_prob]

/-- `utility` from `strategy.py`: risk-adjusted utility of a chip delta.
A zero delta maps to 0; an (effectively) zero scaled risk returns the
delta unchanged; otherwise the delta's magnitude is normalised by the
chip scale, capped, raised to an exponent chosen by the signs of the
risk coefficient and of the delta, rescaled, and given the delta's sign
(Python `math.copysign`). -/
noncomputable def utility (delta_chips risk_style : Real)
    (chip_scale slider_scale : Real) : Real :=
  let x := delta_chips
  if x = 0 then 0
  else
    let r := risk_style * slider_scale
    if |r| < 1e-12 then x
    else
      let k := |r|
      let a_gain := if 0 < r then 1 + k else 1 / (1 + k)
      let a_loss := if 0 < r then 1 / (1 + k) else 1 + k
      let a := if 0 < x then a_gain else a_loss
      let C := max chip_scale 1e-9
      let s := min (|x| / C) 1e12
      let u := C * (Real.rpow (s + 1) a - 1) / a
      if x < 0 then -|u| else |u|

/-- C6: `utility(0, r, *)` is 0 for every risk style and every scale, and
`utility(x, 0, *)` is exactly x for every nonzero chip delta x (the
risk-neutral branch), for every scale. -/
theorem utility_zero_and_neutral :
    (∀ r cs ss : Real, utility 0 r cs ss = 0)
    ∧ (∀ x cs ss : Real, x ≠ 0 → utility x 0 cs ss = x) := by
  constructor
  · intro r cs ss
    unfold utility
    rw [if_pos rfl]
  · intro x cs ss hx
    unfold utility
    rw [if_neg hx]
    rw [if_pos (by rw [zero_mul, abs_zero]; norm_num)]

/-- Closed instance of C6's risk-neutral identity at x = 1, the
hypothesis discharged. -/
theorem utility_zero_and_neutral_witness : utility 1 0 100 0.1 = 1 :=
  utility_zero_and_neutral.2 1 100 0.1 (by norm_num)

/-- The rank integers of `Rank` in declaration order (2..14, Ace = 14). -/
def rankValues : List Nat := [2, 3, 4, 5, 6, 7, 8, 9, 10, 11, 12, 13, 14]

/-- The suits in declaration order (CLUBS, DIAMONDS, HEARTS, SPADES). -/
def suitValues : List Suit := [.CLUBS, .DIAMONDS, .HEARTS, .SPADES]

/-- A fresh 52-card deck in `Deck()`'s generation order: for each suit in
order, every rank in order. -/
def fullDeckCards : List Card :=
  (suitValues.map (fun s => rankValues.map (fun r => (⟨r, s⟩ : Card)))).flatten

/-- `_build_reduced_deck` from `equity.py` (and the inlined equivalent in
`simulate_hero_vs_random_opponents`): the full deck minus the used
cards, generation order preserved. -/
def build_reduced_deck (used : List Card) : Deck :=
  ⟨fullDeckCards.filter (fun c => !(used.contains c))⟩

/-- Python `counts[w] += 1` on a counter list. -/
def bumpAt (counts : List Nat) (w : Nat) : List Nat :=
  counts.set w (counts.getD w 0 + 1)

/-- Python `counts[w] = 1` on a counter list (the deterministic branch of
`simulate_equity` assigns rather than increments). -/
def setOneAt (counts : List Nat) (w : Nat) : List Nat :=
  counts.set w 1

/-- One Monte Carlo trial of `simulate_equity`, the shuffle externalised:
`deckCards` is the shuffled reduced deck, the missing board cards are
drawn from its live end, and the winners are resolved. -/
def equityTrial (deckCards : List Card) (hole_hands : List (List Card))
    (board : List Card) (cards_to_draw : Nat) : Except Err (List Nat) :=
  match Deck.draw_many (cards_to_draw : Int) ⟨deckCards⟩ with
  | (.error e, _) => .error e
  | (.ok drawn, _) =>
    match determine_winners hole_hands (board ++ drawn) with
    | .error e => .error e
    | .ok (winners, _) => .ok winners

/-- The trial loop of `simulate_equity`'s Monte Carlo branch: `t` trials,
trial number `j` shuffling the reduced deck with the oracle `σ j`; a sole
winner's win counter is incremented, otherwise every tied winner's tie
counter is incremented. -/
def equityLoop (σ : Nat → List Card → List Card) (hole_hands : List (List Card))
    (board known : List Card) (cards_to_draw : Nat) :
    Nat → Except Err (List Nat × List Nat)
  | 0 => .ok (List.replicate hole_hands.length 0, List.replicate hole_hands.length 0)
  | t + 1 =>
    match equityLoop σ hole_hands board known cards_to_draw t with
    | .error e => .error e
    | .ok (win_counts, tie_counts) =>
      match equityTrial (σ t (build_reduced_deck known).cards) hole_hands board
          cards_to_draw with
      | .error e => .error e
      | .ok winners =>
        if winners.length = 1 then .ok (bumpAt win_counts (winners.headD 0), tie_counts)
        else .ok (win_counts, winners.foldl bumpAt tie_counts)

/-- `simulate_equity` from `equity.py`, with the random shuffle
externalised as the oracle `σ` (trial number to permutation of the
reduced deck). A full 5-card board bypasses sampling: `determine_winners`
runs once, a sole winner's win counter is set to 1, a tied group's tie
counters are set to 1, and the counts are divided by 1. Otherwise each
of `num_samples` trials completes the board and the counts are divided
by `num_samples`. -/
def simulate_equity (σ : Nat → List Card → List Card)
    (hole_hands : List (List Card)) (board : List Card) (num_samples : Nat) :
    Except Err (List Rat × List Rat) :=
  if hole_hands.isEmpty then .error .NoPlayers
  else if ¬ board.length ≤ 5 then .error .BoardSizeOutOfRange
  else
    match checkHoleSizes hole_hands 0 with
    | .error e => .error e
    | .ok _ =>
      if board.length = 5 then
        match determine_winners hole_hands board with
        | .error e => .error e
        | .ok (winners, _) =>
          let zeros := List.replicate hole_hands.length (0 : Nat)
          let win_counts :=
            if winners.length = 1 then setOneAt zeros (winners.headD 0) else zeros
          let tie_counts :=
            if winners.length = 1 then zeros else winners.foldl setOneAt zeros
          .ok (win_counts.map (fun (w : Nat) => (w : Rat) / 1),
            tie_counts.map (fun (t : Nat) => (t : Rat) / 1))
      else
        let known := hole_hands.flatten ++ board
        match equityLoop σ hole_hands board known (5 - board.length) num_samples with
        | .error e => .error e
        | .ok (win_counts, tie_counts) =>
          .ok (win_counts.map (fun (w : Nat) => (w : Rat) / (num_samples : Rat)),
            tie_counts.map (fun (t : Nat) => (t : Rat) / (num_samples : Rat)))

/-- The opponent-dealing loop of `simulate_hero_vs_random_opponents`:
2 cards per opponent, drawn in order from the deck's live end. -/
def dealOpponents : Nat → Deck → (Except Err (List (List Card))) × Deck
  | 0, d => (.ok [], d)
  | k + 1, d =>
    match Deck.draw_many 2 d with
    | (.ok h, d1) =>
      match dealOpponents k d1 with
      | (.ok hs, d2) => (.ok (h :: hs), d2)
      | (.error e, d2) => (.error e, d2)
    | (.error e, d1) => (.error e, d1)

/-- One trial of `simulate_hero_vs_random_opponents`: from the shuffled
reduced deck deal 2 cards to each opponent (hero is player 0), complete
the board, re-validate uniqueness, resolve winners. -/
def heroTrial (deckCards : List Card) (hero_hole board : List Card)
    (num_opponents cards_to_draw : Nat) : Except Err (List Nat) :=
  match dealOpponents num_opponents ⟨deckCards⟩ with
  | (.error e, _) => .error e
  | (.ok opponents, d1) =>
    match Deck.draw_many (cards_to_draw : Int) d1 with
    | (.error e, _) => .error e
    | (.ok drawn_board, _) =>
      match validate_unique_cards (hero_hole :: opponents) (board ++ drawn_board) with
      | .error e => .error e
      | .ok _ =>
        match determine_winners (hero_hole :: opponents) (board ++ drawn_board) with
        | .error e => .error e
        | .ok (winners, _) => .ok winners

/-- The counting loop of `simulate_hero_vs_random_opponents`: hero-win
counts trials the hero (index 0) wins alone, hero-tie counts trials the
hero shares a split pot; any other outcome counts nothing. -/
def heroCounts (σ : Nat → List Card → List Card) (hero_hole board : List Card)
    (num_opponents cards_to_draw : Nat) : Nat → Except Err (Nat × Nat)
  | 0 => .ok (0, 0)
  | t + 1 =>
    match heroCounts σ hero_hole board num_opponents cards_to_draw t with
    | .error e => .error e
    | .ok (hero_win, hero_tie) =>
      match heroTrial (σ t (build_reduced_deck (hero_hole ++ board)).cards)
          hero_hole board num_opponents cards_to_draw with
      | .error e => .error e
      | .ok winners =>
        if winners.length = 1 then
          if winners.headD 0 = 0 then .ok (hero_win + 1, hero_tie)
          else .ok (hero_win, hero_tie)
        else
          if 0 ∈ winners then .ok (hero_win, hero_tie + 1)
          else .ok (hero_win, hero_tie)

/-- `simulate_hero_vs_random_opponents` from `equity.py`, with the
shuffle externalised as the oracle `σ`; returns the hero's win and tie
counters each divided by `num_samples`. -/
def simulate_hero_vs_random_opponents (σ : Nat → List Card → List Card)
    (hero_hole board : List Card) (num_opponents num_samples : Nat) :
    Except Err (Rat × Rat) :=
  if hero_hole.length < 2 then .error (.TooFewHoleCards 0)
  else if ¬ board.length ≤ 5 then .error .BoardSizeOutOfRange
  else if num_opponents < 1 then .error .InvalidArgument
  else
    match heroCounts σ hero_hole board num_opponents (5 - board.length) num_samples with
    | .error e => .error e
    | .ok (hero_win, hero_tie) =>
      .ok ((hero_win : Rat) / (num_samples : Rat), (hero_tie : Rat) / (num_samples : Rat))

theorem determine_winners_ok_inv (hh : List (List Card)) (b : List Card)
    (ws : List Nat) (hvs : List HandValue)
    (h : determine_winners hh b = .ok (ws, hvs)) :
    hh ≠ [] ∧ validate_unique_cards hh b = .ok ()
    ∧ checkHoleSizes hh 0 = .ok ()
    ∧ evalHands b hh = .ok hvs ∧ ws = winnersOf hvs := by
  have hne : hh ≠ [] := by
    intro hnil
    subst hnil
    simp [determine_winners] at h
  rw [determine_winners_ne hh b hne] at h
  cases hval : validate_unique_cards hh b with
  | error e =>
    rw [hval] at h
    cases h
  | ok u =>
    cases u
    rw [hval] at h
    cases hchk : checkHoleSizes hh 0 with
    | error e =>
      rw [hchk] at h
      cases h
    | ok u2 =>
      cases u2
      rw [hchk] at h
      cases hev : evalHands b hh with
      | error e =>
        rw [hev] at h
        cases h
      | ok hvs0 =>
        rw [hev] at h
        simp only [Except.ok.injEq, Prod.mk.injEq] at h
        obtain ⟨hws, hhvs⟩ := h
        subst hhvs
        exact ⟨hne, rfl, rfl, rfl, hws.symm⟩

theorem evalHands_length : ∀ (l : List (List Card)) (b : List Card)
    (hvs : List HandValue), evalHands b l = .ok hvs → hvs.length = l.length := by
  intro l
  induction l with
  | nil =>
    intro b hvs h
    simp only [evalHands, Except.ok.injEq] at h
    rw [← h]
    rfl
  | cons hole t ih =>
    intro b hvs h
    simp only [evalHands] at h
    cases he : evaluate_best (hole ++ b) with
    | error e =>
      rw [he] at h
      cases h
    | ok hv =>
      rw [he] at h
      cases ht : evalHands b t with
      | error e =>
        rw [ht] at h
        cases h
      | ok tl =>
        rw [ht] at h
        simp only [Except.ok.injEq] at h
        rw [← h]
        simp [ih b tl ht]

theorem winnersOf_lt_length (hvs : List HandValue) (i : Nat)
    (h : i ∈ winnersOf hvs) : i < hvs.length := by
  unfold winnersOf at h
  obtain ⟨j, hj, hij, _⟩ := (winnersFrom_mem _ hvs 0 i).1 h
  omega

theorem winnersOf_ne_nil (hvs : List HandValue) (h : hvs ≠ []) :
    winnersOf hvs ≠ [] := by
  obtain ⟨m, hm⟩ := pyMax_isSome h
  obtain ⟨j, hjlt, hjv⟩ := List.mem_iff_getElem.1 (pyMax_spec _ _ hm).1
  have : j ∈ winnersOf hvs := by
    unfold winnersOf
    rw [hm]
    simp only [Option.getD_some]
    refine (winnersFrom_mem m hvs 0 j).2 ⟨j, hjlt, by omega, ?_⟩
    rw [List.getD_eq_getElem hvs _ hjlt]
    exact hjv
  intro hnil
  rw [hnil] at this
  cases this

theorem setOneAt_length (counts : List Nat) (w : Nat) :
    (setOneAt counts w).length = counts.length := by
  simp [setOneAt]

theorem foldl_setOneAt_length : ∀ (ws : List Nat) (acc : List Nat),
    (ws.foldl setOneAt acc).length = acc.length := by
  intro ws
  induction ws with
  | nil => intro acc; rfl
  | cons w t ih =>
    intro acc
    simp only [List.foldl_cons, ih, setOneAt_length]

theorem setOneAt_getD (counts : List Nat) (w i : Nat) (hi : i < counts.length) :
    (setOneAt counts w).getD i 0 = if i = w then 1 else counts.getD i 0 := by
  unfold setOneAt
  rw [List.getD_eq_getElem _ _ (by simpa using hi),
    List.getElem_set]
  by_cases hiw : i = w
  · rw [if_pos hiw, if_pos hiw.symm]
  · rw [if_neg hiw, if_neg (fun hx => hiw hx.symm), List.getD_eq_getElem _ _ hi]

theorem foldl_setOneAt_getD : ∀ (ws : List Nat) (acc : List Nat) (i : Nat),
    i < acc.length →
    (ws.foldl setOneAt acc).getD i 0 = if i ∈ ws then 1 else acc.getD i 0 := by
  intro ws
  induction ws with
  | nil =>
    intro acc i _
    simp
  | cons w t ih =>
    intro acc i hi
    simp only [List.foldl_cons]
    rw [ih (setOneAt acc w) i (by simpa [setOneAt_length] using hi)]
    rw [setOneAt_getD acc w i hi]
    by_cases hit : i ∈ t
    · simp [hit]
    · by_cases hiw : i = w
      · simp [hit, hiw]
      · simp [hit, hiw]

theorem replicate_zero_getD (n i : Nat) : (List.replicate n (0 : Nat)).getD i 0 = 0 := by
  by_cases h : i < n
  · rw [List.getD_eq_getElem _ _ (by simpa using h)]
    simp
  · rw [List.getD_eq_default _ _ (by simpa using h)]

theorem map_cast_eq_range (counts : List Nat) (n : Nat) (p : Nat → Prop)
    [DecidablePred p] (hlen : counts.length = n)
    (hval : ∀ i, i < n → counts.getD i 0 = if p i then 1 else 0) :
    counts.map (fun (x : Nat) => (x : Rat) / 1)
      = (List.range n).map (fun i => if p i then (1 : Rat) else 0) := by
  apply List.ext_getElem
  · simp [hlen]
  · intro i h1 h2
    simp only [List.getElem_map, List.getElem_range]
    have hi : i < counts.length := by simpa using h1
    have h3 := hval i (by omega)
    rw [List.getD_eq_getElem counts 0 hi] at h3
    rw [div_one, h3]
    by_cases hp : p i
    · simp [hp]
    · simp [hp]

theorem simulate_equity_det (σ : Nat → List Card → List Card)
    (hole_hands : List (List Card)) (board : List Card) (num_samples : Nat)
    (ws : List Nat) (hvs : List HandValue)
    (hb : board.length = 5)
    (hdw : determine_winners hole_hands board = .ok (ws, hvs)) :
    simulate_equity σ hole_hands board num_samples =
      .ok ((if ws.length = 1
              then setOneAt (List.replicate hole_hands.length 0) (ws.headD 0)
              else List.replicate hole_hands.length 0).map (fun (w : Nat) => (w : Rat) / 1),
        (if ws.length = 1
              then List.replicate hole_hands.length 0
              else ws.foldl setOneAt (List.replicate hole_hands.length 0)).map
          (fun (t : Nat) => (t : Rat) / 1)) := by
  obtain ⟨hne, hval, hchk, hev, hws⟩ := determine_winners_ok_inv _ _ _ _ hdw
  have hemp : hole_hands.isEmpty = false := by
    cases hole_hands with
    | nil => exact absurd rfl hne
    | cons a t => rfl
  simp only [simulate_equity, hemp, Bool.false_eq_true, if_false]
  rw [if_neg (show ¬¬board.length ≤ 5 by omega)]
  rw [hchk, if_pos hb, hdw]

set_option maxRecDepth 100000 in
/-- C4: with a complete 5-card board, `simulate_equity` is deterministic:
for every shuffle oracle and every sample count it returns win
probability 1 for a sole winner and 0 elsewhere, and tie probability 1
for every member of a tied winning group (a full unit, not a 1/group
share); in particular hole hands A♠A♥ and K♠K♥ on board Q♠Q♥2♣3♦4♥ give
win probabilities [1, 0] and tie probabilities [0, 0]. -/
theorem simulate_equity_full_board :
    (∀ (σ : Nat → List Card → List Card) (hole_hands : List (List Card))
        (board : List Card) (num_samples : Nat) (ws : List Nat) (hvs : List HandValue),
      board.length = 5 →
      determine_winners hole_hands board = .ok (ws, hvs) →
      simulate_equity σ hole_hands board num_samples =
        .ok ((List.range hole_hands.length).map
              (fun i => if ws = [i] then (1 : Rat) else 0),
          (List.range hole_hands.length).map
              (fun i => if 1 < ws.length ∧ i ∈ ws then (1 : Rat) else 0)))
    ∧ (∀ (σ : Nat → List Card → List Card) (num_samples : Nat),
      simulate_equity σ
          [[⟨14, .SPADES⟩, ⟨14, .HEARTS⟩], [⟨13, .SPADES⟩, ⟨13, .HEARTS⟩]]
          [⟨12, .SPADES⟩, ⟨12, .HEARTS⟩, ⟨2, .CLUBS⟩, ⟨3, .DIAMONDS⟩, ⟨4, .HEARTS⟩]
          num_samples
        = .ok ([1, 0], [0, 0])) := by
  have main : ∀ (σ : Nat → List Card → List Card) (hole_hands : List (List Card))
      (board : List Card) (num_samples : Nat) (ws : List Nat) (hvs : List HandValue),
      board.length = 5 →
      determine_winners hole_hands board = .ok (ws, hvs) →
      simulate_equity σ hole_hands board num_samples =
        .ok ((List.range hole_hands.length).map
              (fun i => if ws = [i] then (1 : Rat) else 0),
          (List.range hole_hands.length).map
              (fun i => if 1 < ws.length ∧ i ∈ ws then (1 : Rat) else 0)) := by
    intro σ hole_hands board num_samples ws hvs hb hdw
    obtain ⟨hne, _, _, hev, hws⟩ := determine_winners_ok_inv _ _ _ _ hdw
    have hnlen : hvs.length = hole_hands.length := evalHands_length _ _ _ hev
    rw [simulate_equity_det σ hole_hands board num_samples ws hvs hb hdw]
    by_cases h1 : ws.length = 1
    · obtain ⟨w, hw⟩ := List.length_eq_one.1 h1
      have hwin : w ∈ ws := by
        rw [hw]
        exact List.mem_cons_self _ _
      have hwlt : w < hole_hands.length := by
        rw [← hnlen]
        exact winnersOf_lt_length hvs w (hws ▸ hwin)
      rw [if_pos h1, if_pos h1]
      simp only [Except.ok.injEq, Prod.mk.injEq]
      constructor
      · apply map_cast_eq_range _ _ (fun i => ws = [i])
        · simp [setOneAt_length]
        · intro i hi
          rw [hw]
          simp only [List.headD_cons]
          rw [setOneAt_getD _ _ _ (by simpa using hi)]
          by_cases hiw : i = w
          · subst hiw
            rw [if_pos rfl, if_pos rfl]
          · rw [if_neg hiw, replicate_zero_getD]
            rw [if_neg (by intro hx; injection hx with hx1; exact hiw hx1.symm)]
      · apply map_cast_eq_range _ _ (fun i => 1 < ws.length ∧ i ∈ ws)
        · simp
        · intro i hi
          rw [replicate_zero_getD]
          rw [if_neg (by intro hx; omega)]
    · have hvne : hvs ≠ [] := by
        intro hnil
        rw [hnil] at hnlen
        exact hne (List.eq_nil_of_length_eq_zero hnlen.symm)
      have hwsne : ws ≠ [] := hws ▸ winnersOf_ne_nil hvs hvne
      have hlen0 : ws.length ≠ 0 := by
        simpa [List.length_eq_zero] using hwsne
      have hlt : 1 < ws.length := by omega
      rw [if_neg h1, if_neg h1]
      simp only [Except.ok.injEq, Prod.mk.injEq]
      constructor
      · apply map_cast_eq_range _ _ (fun i => ws = [i])
        · simp
        · intro i hi
          rw [replicate_zero_getD]
          rw [if_neg (by intro hx; rw [hx] at h1; exact h1 rfl)]
      · apply map_cast_eq_range _ _ (fun i => 1 < ws.length ∧ i ∈ ws)
        · simp [foldl_setOneAt_length]
        · intro i hi
          rw [foldl_setOneAt_getD ws _ i (by simpa using hi), replicate_zero_getD]
          by_cases him : i ∈ ws
          · simp [him, hlt]
          · simp [him]
  refine ⟨main, ?_⟩
  intro σ num_samples
  rw [main σ
    [[⟨14, .SPADES⟩, ⟨14, .HEARTS⟩], [⟨13, .SPADES⟩, ⟨13, .HEARTS⟩]]
    [⟨12, .SPADES⟩, ⟨12, .HEARTS⟩, ⟨2, .CLUBS⟩, ⟨3, .DIAMONDS⟩, ⟨4, .HEARTS⟩]
    num_samples [0]
    [⟨HandCategory.TWO_PAIR, [14, 12, 4]⟩, ⟨HandCategory.TWO_PAIR, [13, 12, 4]⟩] rfl rfl]
  rfl

/-- Closed instance of C4 at the A♠A♥ versus K♠K♥ scenario with an
identity shuffle oracle and 3 samples. -/
theorem simulate_equity_full_board_witness :
    simulate_equity (fun _ l => l)
        [[⟨14, .SPADES⟩, ⟨14, .HEARTS⟩], [⟨13, .SPADES⟩, ⟨13, .HEARTS⟩]]
        [⟨12, .SPADES⟩, ⟨12, .HEARTS⟩, ⟨2, .CLUBS⟩, ⟨3, .DIAMONDS⟩, ⟨4, .HEARTS⟩] 3
      = .ok ([1, 0], [0, 0]) :=
  simulate_equity_full_board.2 (fun _ l => l) 3

theorem heroCounts_le (σ : Nat → List Card → List Card) (hero_hole board : List Card)
    (num_opponents cards_to_draw : Nat) : ∀ (t hero_win hero_tie : Nat),
    heroCounts σ hero_hole board num_opponents cards_to_draw t = .ok (hero_win, hero_tie) →
    hero_win + hero_tie ≤ t := by
  intro t
  induction t with
  | zero =>
    intro w ti h
    simp only [heroCounts, Except.ok.injEq, Prod.mk.injEq] at h
    omega
  | succ t ih =>
    intro w ti h
    cases hrec : heroCounts σ hero_hole board num_opponents cards_to_draw t with
    | error e =>
      simp [heroCounts, hrec] at h
    | ok p =>
      obtain ⟨w0, t0⟩ := p
      have hle := ih w0 t0 hrec
      cases htr : heroTrial (σ t (build_reduced_deck (hero_hole ++ board)).cards)
          hero_hole board num_opponents cards_to_draw with
      | error e =>
        simp [heroCounts, hrec, htr] at h
      | ok winners =>
        simp only [heroCounts, hrec, htr] at h
        split at h <;> split at h <;>
          (simp only [Except.ok.injEq, Prod.mk.injEq] at h; omega)

set_option maxRecDepth 100000 in
/-- C10: each trial of `simulate_hero_vs_random_opponents` increments at
most one of the hero-win and hero-tie counters (hero-win only for a sole
hero win, hero-tie only for a split containing the hero), so for at
least one sample the returned win and tie probabilities each lie in
[0, 1] and sum to at most 1. -/
theorem hero_sim_probability_bounds (σ : Nat → List Card → List Card)
    (hero_hole board : List Card) (num_opponents num_samples : Nat) :
    (∀ t hero_win hero_tie,
      heroCounts σ hero_hole board num_opponents (5 - board.length) t
          = .ok (hero_win, hero_tie) →
      hero_win ≤ t ∧ hero_tie ≤ t ∧ hero_win + hero_tie ≤ t)
    ∧ (∀ w t : Rat, 1 ≤ num_samples →
      simulate_hero_vs_random_opponents σ hero_hole board num_opponents num_samples
          = .ok (w, t) →
      0 ≤ w ∧ w ≤ 1 ∧ 0 ≤ t ∧ t ≤ 1 ∧ w + t ≤ 1) := by
  constructor
  · intro t w ti h
    have := heroCounts_le σ hero_hole board num_opponents (5 - board.length) t w ti h
    omega
  · intro w t hns h
    simp only [simulate_hero_vs_random_opponents] at h
    split at h
    · cases h
    · split at h
      · cases h
      · split at h
        · cases h
        · cases hc : heroCounts σ hero_hole board num_opponents (5 - board.length)
              num_samples with
          | error e =>
            rw [hc] at h
            cases h
          | ok p =>
            obtain ⟨cw, ct⟩ := p
            rw [hc] at h
            simp only [Except.ok.injEq, Prod.mk.injEq] at h
            obtain ⟨hw, ht⟩ := h
            have hsum := heroCounts_le σ hero_hole board num_opponents
              (5 - board.length) num_samples cw ct hc
            have hpos : (0 : Rat) < (num_samples : Rat) := by
              have : 0 < num_samples := by omega
              exact_mod_cast this
            have hwle : (cw : Rat) ≤ (num_samples : Rat) := by
              have : cw ≤ num_samples := by omega
              exact_mod_cast this
            have htle : (ct : Rat) ≤ (num_samples : Rat) := by
              have : ct ≤ num_samples := by omega
              exact_mod_cast this
            have hstle : (cw : Rat) + (ct : Rat) ≤ (num_samples : Rat) := by
              have : cw + ct ≤ num_samples := hsum
              exact_mod_cast this
            subst hw
            subst ht
            refine ⟨?_, ?_, ?_, ?_, ?_⟩
            · exact div_nonneg (by positivity) (le_of_lt hpos)
            · exact (div_le_one hpos).2 hwle
            · exact div_nonneg (by positivity) (le_of_lt hpos)
            · exact (div_le_one hpos).2 htle
            · rw [div_add_div_same]
              exact (div_le_one hpos).2 hstle

set_option maxRecDepth 400000 in
/-- Closed instance of C10 at a concrete one-opponent, full-board trial
with an identity shuffle oracle, all hypotheses discharged. -/
theorem hero_sim_probability_bounds_witness :
    0 ≤ ((1 : Nat) : Rat) / ((1 : Nat) : Rat)
      ∧ ((1 : Nat) : Rat) / ((1 : Nat) : Rat) ≤ 1
      ∧ 0 ≤ ((0 : Nat) : Rat) / ((1 : Nat) : Rat)
      ∧ ((0 : Nat) : Rat) / ((1 : Nat) : Rat) ≤ 1
      ∧ ((1 : Nat) : Rat) / ((1 : Nat) : Rat) + ((0 : Nat) : Rat) / ((1 : Nat) : Rat) ≤ 1 :=
  (hero_sim_probability_bounds (fun _ l => l)
    [⟨14, .SPADES⟩, ⟨13, .SPADES⟩]
    [⟨2, .CLUBS⟩, ⟨3, .CLUBS⟩, ⟨4, .CLUBS⟩, ⟨5, .HEARTS⟩, ⟨7, .DIAMONDS⟩] 1 1).2
    (((1 : Nat) : Rat) / ((1 : Nat) : Rat)) (((0 : Nat) : Rat) / ((1 : Nat) : Rat))
    (by omega) (by rfl)
